import Mathlib

/-!
Verification of the Anti-Judol discovery dashboard (GamblShield Discovery).

Shallow embedding of the registry logic in `src/App.tsx`, the record types in
`src/types.ts`, and the discovery service `performDiscovery`.  JavaScript
`Map`-based deduplication is embedded as an association list with the
insertion semantics of `Map.prototype.set` (update the value in place when the
key is present, append otherwise), which is exactly how `new Map(entries)`
processes its entry list.
-/

set_option maxHeartbeats 1000000

/-- Embeds the `SiteStatus` enum of `src/types.ts` (values `active`,
`flagged`, `false_positive`). -/
inductive SiteStatus where
  | ACTIVE
  | FLAGGED
  | FALSE_POSITIVE
deriving DecidableEq, Repr

/-- Embeds the `GamblingSite` interface of `src/types.ts`.  The JavaScript
`number` field `confidence_score` is modelled as a rational; no claim depends
on its arithmetic. -/
structure GamblingSite where
  id : String
  site_name : String
  normalized_name : String
  first_seen : String
  last_seen : String
  confidence_score : Rat
  status : SiteStatus
  source_count : Nat
  sources : List String
deriving DecidableEq, Repr

/-- One `Map` entry: `[item.normalized_name, item]`. -/
abbrev SiteEntry := String × GamblingSite

/-- Keys of the map, in iteration order. -/
def entryKeys (m : List SiteEntry) : List String := m.map Prod.fst

/-- Models `Map.prototype.set`: if the key is already present its value is updated in
place (iteration order keeps the position of the first insertion), otherwise
the entry is appended at the end. -/
def mapSet : List SiteEntry → String → GamblingSite → List SiteEntry
  | [], k, v => [(k, v)]
  | p :: ps, k, v => if p.1 = k then (k, v) :: ps else p :: mapSet ps k v

/-- Models `new Map(l.map(item => [item.normalized_name, item]))`: the entry list is
processed left to right by `Map.prototype.set`, starting from `m`. -/
def insertAll : List SiteEntry → List GamblingSite → List SiteEntry
  | m, [] => m
  | m, x :: xs => insertAll (mapSet m x.normalized_name x) xs

/-- Models `Array.from(new Map(...).values())` over the entry list
`l.map(item => [item.normalized_name, item])`, from `handleDiscovery` in `src/App.tsx`. -/
def dedupByKey (l : List GamblingSite) : List GamblingSite :=
  (insertAll [] l).map Prod.snd

/-- The `setSites` updater body of `handleDiscovery` (`src/App.tsx` lines
55-67): `combined = [...newSites, ...prev]`, then one record per
`normalized_name` via the `Map` pass. -/
def mergeSites (newSites prev : List GamblingSite) : List GamblingSite :=
  dedupByKey (newSites ++ prev)

/-- Models `Map.get`: the value stored at key `k`, if any. -/
def mapGet (m : List SiteEntry) (k : String) : Option GamblingSite :=
  (m.find? (fun p => p.1 = k)).map Prod.snd

/-- Every entry of the map stores a site whose `normalized_name` is its key.
This holds for every map built by `insertAll` from site records. -/
def entriesConsistent (m : List SiteEntry) : Prop :=
  ∀ p ∈ m, p.2.normalized_name = p.1

theorem mapSet_cons_ne {p : SiteEntry} {m : List SiteEntry} {k : String}
    {v : GamblingSite} (h : p.1 ≠ k) :
    mapSet (p :: m) k v = p :: mapSet m k v := by
  simp [mapSet, h]

theorem mapSet_of_not_mem {m : List SiteEntry} {k : String} {v : GamblingSite}
    (h : k ∉ entryKeys m) : mapSet m k v = m ++ [(k, v)] := by
  induction m with
  | nil => rfl
  | cons p ps ih =>
    simp only [entryKeys, List.map_cons, List.mem_cons] at h
    push_neg at h
    rw [mapSet_cons_ne (fun hpk => h.1 hpk.symm)]
    simp [ih (by simpa [entryKeys] using h.2)]

theorem entryKeys_mapSet_of_mem {m : List SiteEntry} {k : String}
    {v : GamblingSite} (h : k ∈ entryKeys m) :
    entryKeys (mapSet m k v) = entryKeys m := by
  induction m with
  | nil => simp [entryKeys] at h
  | cons p ps ih =>
    by_cases hpk : p.1 = k
    · simp [mapSet, hpk, entryKeys]
    · rw [mapSet_cons_ne hpk]
      simp only [entryKeys, List.map_cons] at h ⊢
      rcases List.mem_cons.1 h with h1 | h2
      · exact absurd h1.symm hpk
      · have h3 := ih h2
        simp only [entryKeys] at h3
        rw [h3]

theorem entryKeys_nodup_mapSet {m : List SiteEntry} {k : String}
    {v : GamblingSite} (h : (entryKeys m).Nodup) :
    (entryKeys (mapSet m k v)).Nodup := by
  by_cases hk : k ∈ entryKeys m
  · rwa [entryKeys_mapSet_of_mem hk]
  · rw [mapSet_of_not_mem hk]
    simp only [entryKeys, List.map_append, List.map_cons, List.map_nil]
    rw [List.nodup_append]
    exact ⟨h, List.nodup_singleton k,
      fun a ha hal => hk ((List.mem_singleton.1 hal) ▸ ha)⟩

theorem entriesConsistent_mapSet {m : List SiteEntry} {k : String}
    {v : GamblingSite} (hm : entriesConsistent m) (hv : v.normalized_name = k) :
    entriesConsistent (mapSet m k v) := by
  induction m with
  | nil => intro p hp; simp [mapSet] at hp; simp [hp, hv]
  | cons q qs ih =>
    by_cases hqk : q.1 = k
    · intro p hp
      simp only [mapSet, if_pos hqk, List.mem_cons] at hp
      rcases hp with rfl | hp
      · exact hv
      · exact hm p (List.mem_cons_of_mem q hp)
    · rw [mapSet_cons_ne hqk]
      intro p hp
      rcases List.mem_cons.1 hp with h1 | hp2
      · exact h1 ▸ hm q (List.mem_cons_self q qs)
      · exact ih (fun r hr => hm r (List.mem_cons_of_mem q hr)) p hp2

theorem entryKeys_nodup_insertAll {m : List SiteEntry} {l : List GamblingSite}
    (h : (entryKeys m).Nodup) : (entryKeys (insertAll m l)).Nodup := by
  induction l generalizing m with
  | nil => exact h
  | cons x xs ih => exact ih (entryKeys_nodup_mapSet h)

theorem entriesConsistent_insertAll {m : List SiteEntry} {l : List GamblingSite}
    (h : entriesConsistent m) : entriesConsistent (insertAll m l) := by
  induction l generalizing m with
  | nil => exact h
  | cons x xs ih => exact ih (entriesConsistent_mapSet h rfl)

theorem insertAll_append (m : List SiteEntry) (l1 l2 : List GamblingSite) :
    insertAll m (l1 ++ l2) = insertAll (insertAll m l1) l2 := by
  induction l1 generalizing m with
  | nil => rfl
  | cons x xs ih => simp [insertAll, ih]

theorem mapGet_mapSet_self (m : List SiteEntry) (k : String) (v : GamblingSite) :
    mapGet (mapSet m k v) k = some v := by
  induction m with
  | nil => simp [mapSet, mapGet]
  | cons p ps ih =>
    by_cases hpk : p.1 = k
    · simp [mapSet, hpk, mapGet]
    · rw [mapSet_cons_ne hpk]
      simpa [mapGet, List.find?_cons_of_neg, hpk] using ih

theorem mapGet_mapSet_ne {m : List SiteEntry} {k k' : String} {v : GamblingSite}
    (h : k' ≠ k) : mapGet (mapSet m k v) k' = mapGet m k' := by
  have hkk' : ¬ (k = k') := fun hh => h hh.symm
  induction m with
  | nil => simp [mapSet, mapGet, hkk']
  | cons p ps ih =>
    by_cases hpk : p.1 = k
    · have hstep : mapSet (p :: ps) k v = (k, v) :: ps := by simp [mapSet, hpk]
      have hpk' : ¬ (p.1 = k') := by rw [hpk]; exact hkk'
      rw [hstep]
      simp [mapGet, List.find?, hkk', hpk']
    · rw [mapSet_cons_ne hpk]
      by_cases hpk' : p.1 = k'
      · simp [mapGet, List.find?, hpk']
      · simp only [mapGet, List.find?] at ih ⊢
        rw [decide_eq_false hpk']
        exact ih

theorem mapGet_mem {m : List SiteEntry} {k : String} {v : GamblingSite}
    (h : mapGet m k = some v) : (k, v) ∈ m := by
  simp only [mapGet, Option.map_eq_some'] at h
  obtain ⟨p, hp, hv⟩ := h
  have hmem := List.mem_of_find?_eq_some hp
  have hk : p.1 = k := by simpa using List.find?_some hp
  have : p = (k, v) := by
    cases p
    simp only at hk hv
    simp [hk, hv]
  exact this ▸ hmem

theorem mapGet_eq_of_mem_nodup {m : List SiteEntry} {k : String}
    {v : GamblingSite} (hn : (entryKeys m).Nodup) (hm : (k, v) ∈ m) :
    mapGet m k = some v := by
  induction m with
  | nil => simp at hm
  | cons p ps ih =>
    simp only [entryKeys, List.map_cons, List.nodup_cons] at hn
    rcases List.mem_cons.1 hm with h1 | h2
    · simp [mapGet, List.find?, ← h1]
    · have hpk : p.1 ≠ k := by
        intro hk
        exact hn.1 (hk ▸ (by simpa [entryKeys] using List.mem_map_of_mem Prod.fst h2))
      simpa [mapGet, List.find?, hpk] using ih hn.2 h2

theorem mapGet_insertAll_of_not_mem {m : List SiteEntry} {l : List GamblingSite}
    {k : String} (h : k ∉ l.map GamblingSite.normalized_name) :
    mapGet (insertAll m l) k = mapGet m k := by
  induction l generalizing m with
  | nil => rfl
  | cons x xs ih =>
    simp only [List.map_cons, List.mem_cons] at h
    push_neg at h
    rw [insertAll, ih h.2, mapGet_mapSet_ne h.1]

theorem mapGet_insertAll_self {prev : List GamblingSite}
    (hn : (prev.map GamblingSite.normalized_name).Nodup) :
    ∀ (m : List SiteEntry), ∀ s ∈ prev,
      mapGet (insertAll m prev) s.normalized_name = some s := by
  induction prev with
  | nil => intro m s hs; simp at hs
  | cons x xs ih =>
    simp only [List.map_cons, List.nodup_cons] at hn
    intro m s hs
    rcases List.mem_cons.1 hs with h1 | h2
    · subst h1
      rw [insertAll, mapGet_insertAll_of_not_mem hn.1, mapGet_mapSet_self]
    · exact ih hn.2 (mapSet m x.normalized_name x) s h2

theorem entryKeys_insertAll_extends (m : List SiteEntry) (l : List GamblingSite) :
    ∃ r, entryKeys (insertAll m l) = entryKeys m ++ r := by
  induction l generalizing m with
  | nil => exact ⟨[], by simp [insertAll]⟩
  | cons x xs ih =>
    rw [insertAll]
    obtain ⟨r, hr⟩ := ih (mapSet m x.normalized_name x)
    by_cases hk : x.normalized_name ∈ entryKeys m
    · exact ⟨r, by rwa [entryKeys_mapSet_of_mem hk] at hr⟩
    · refine ⟨x.normalized_name :: r, ?_⟩
      rw [hr, mapSet_of_not_mem hk]
      simp [entryKeys]

theorem values_map_key_eq_entryKeys {m : List SiteEntry}
    (hc : entriesConsistent m) :
    (m.map Prod.snd).map GamblingSite.normalized_name = entryKeys m := by
  rw [List.map_map]
  exact List.map_congr_left (fun p hp => hc p hp)

theorem mem_values_iff_mapGet {m : List SiteEntry} (hc : entriesConsistent m)
    (hn : (entryKeys m).Nodup) {t : GamblingSite} (ht : t ∈ m.map Prod.snd) :
    mapGet m t.normalized_name = some t := by
  simp only [List.mem_map] at ht
  obtain ⟨p, hp, hpt⟩ := ht
  have hk : p.1 = t.normalized_name := by rw [← hpt]; exact (hc p hp).symm
  have : (t.normalized_name, t) ∈ m := by
    have : p = (t.normalized_name, t) := by
      cases p; simp only at hk hpt; simp [hk, hpt]
    exact this ▸ hp
  exact mapGet_eq_of_mem_nodup hn this

theorem insertAll_cons_of_ne_key {p : SiteEntry} {m : List SiteEntry}
    {l : List GamblingSite} (h : ∀ y ∈ l, y.normalized_name ≠ p.1) :
    insertAll (p :: m) l = p :: insertAll m l := by
  induction l generalizing m with
  | nil => rfl
  | cons x xs ih =>
    rw [insertAll, mapSet_cons_ne (fun hh => h x (List.mem_cons_self x xs) hh.symm),
      ih (fun y hy => h y (List.mem_cons_of_mem x hy)), insertAll]

theorem insertAll_of_disjoint {m : List SiteEntry} {l : List GamblingSite}
    (hd : ∀ y ∈ l, y.normalized_name ∉ entryKeys m)
    (hn : (l.map GamblingSite.normalized_name).Nodup) :
    insertAll m l = m ++ l.map (fun s => (s.normalized_name, s)) := by
  induction l generalizing m with
  | nil => simp [insertAll]
  | cons x xs ih =>
    simp only [List.map_cons, List.nodup_cons] at hn
    rw [insertAll, mapSet_of_not_mem (hd x (List.mem_cons_self x xs))]
    rw [ih (fun y hy => ?_) hn.2]
    · simp
    · simp only [entryKeys, List.map_append, List.map_cons, List.map_nil,
        List.mem_append, List.mem_singleton]
      push_neg
      refine ⟨by simpa [entryKeys] using hd y (List.mem_cons_of_mem x hy), ?_⟩
      intro he
      exact hn.1 (he ▸ List.mem_map_of_mem GamblingSite.normalized_name hy)

theorem entries_of_values {m : List SiteEntry} (hc : entriesConsistent m) :
    (m.map Prod.snd).map (fun s => (s.normalized_name, s)) = m := by
  rw [List.map_map]
  have : ∀ p ∈ m, ((fun s => (s.normalized_name, s)) ∘ Prod.snd) p = id p := by
    intro p hp
    have := hc p hp
    cases p
    simp only [Function.comp, id] at this ⊢
    simp [this]
  rw [List.map_congr_left this, List.map_id]

theorem insertAll_rebuild_aligned {A M1 : List SiteEntry}
    (hk : entryKeys A = entryKeys M1) (hn : (entryKeys M1).Nodup)
    (hc : entriesConsistent M1) :
    insertAll A (M1.map Prod.snd) = M1 := by
  induction A generalizing M1 with
  | nil =>
    have : M1 = [] := by
      cases M1 with
      | nil => rfl
      | cons b bs => simp [entryKeys] at hk
    simp [this, insertAll]
  | cons a A2 ih =>
    cases M1 with
    | nil => simp [entryKeys] at hk
    | cons b bs =>
      simp only [entryKeys, List.map_cons, List.cons.injEq] at hk
      simp only [entryKeys, List.map_cons, List.nodup_cons] at hn
      have hbk : b.2.normalized_name = b.1 := hc b (List.mem_cons_self b bs)
      have hcs : entriesConsistent bs :=
        fun r hr => hc r (List.mem_cons_of_mem b hr)
      rw [List.map_cons, insertAll]
      have hstep : mapSet (a :: A2) b.2.normalized_name b.2 = b :: A2 := by
        have ha : a.1 = b.2.normalized_name := by rw [hbk, hk.1]
        have hb : (b.2.normalized_name, b.2) = b := by
          cases b; simp only at hbk; simp [hbk]
        rw [show mapSet (a :: A2) b.2.normalized_name b.2
            = (b.2.normalized_name, b.2) :: A2 by simp [mapSet, ha], hb]
      rw [hstep]
      rw [insertAll_cons_of_ne_key (fun y hy hne => ?_)]
      · rw [ih (by simpa [entryKeys] using hk.2) hn.2 hcs]
      · simp only [List.mem_map] at hy
        obtain ⟨r, hr, hry⟩ := hy
        exact hn.1 (by
          rw [← hne, ← hry, hcs r hr]
          exact List.mem_map_of_mem Prod.fst hr)

theorem insertAll_rebuild {A M : List SiteEntry}
    (hn : (entryKeys M).Nodup) (hc : entriesConsistent M)
    (hpre : ∃ r, entryKeys M = entryKeys A ++ r) :
    insertAll A (M.map Prod.snd) = M := by
  obtain ⟨r, hr⟩ := hpre
  have hlen : (entryKeys A).length = A.length := List.length_map A Prod.fst
  have hsplit : M = M.take A.length ++ M.drop A.length :=
    (List.take_append_drop A.length M).symm
  have hk1 : entryKeys (M.take A.length) = entryKeys A := by
    have : entryKeys (M.take A.length) = (entryKeys M).take A.length := by
      simp [entryKeys, List.map_take]
    rw [this, hr, ← hlen, List.take_left]
  have hn1 : (entryKeys (M.take A.length)).Nodup := by
    rw [show entryKeys (M.take A.length) = (entryKeys M).take A.length by
      simp [entryKeys, List.map_take]]
    exact hn.sublist (List.take_sublist _ _)
  have hc1 : entriesConsistent (M.take A.length) :=
    fun p hp => hc p (List.take_subset _ _ hp)
  have hn2 : (entryKeys (M.drop A.length)).Nodup := by
    rw [show entryKeys (M.drop A.length) = (entryKeys M).drop A.length by
      simp [entryKeys, List.map_drop]]
    exact hn.sublist (List.drop_sublist _ _)
  have hc2 : entriesConsistent (M.drop A.length) :=
    fun p hp => hc p (List.drop_subset _ _ hp)
  have hdisj : ∀ y ∈ (M.drop A.length).map Prod.snd,
      y.normalized_name ∉ entryKeys (M.take A.length) := by
    intro y hy hmem
    have hkeys : entryKeys M =
        entryKeys (M.take A.length) ++ entryKeys (M.drop A.length) := by
      conv_lhs => rw [hsplit]
      simp [entryKeys]
    have hy2 : y.normalized_name ∈ entryKeys (M.drop A.length) := by
      simp only [List.mem_map] at hy
      obtain ⟨p, hp, hpy⟩ := hy
      rw [← hpy, hc2 p hp]
      exact List.mem_map_of_mem Prod.fst hp
    have := hkeys ▸ hn
    rw [List.nodup_append] at this
    exact this.2.2 hmem hy2
  calc insertAll A (M.map Prod.snd)
      = insertAll A ((M.take A.length).map Prod.snd ++
          (M.drop A.length).map Prod.snd) := by
        conv_lhs => rw [hsplit]
        rw [List.map_append]
    _ = insertAll (insertAll A ((M.take A.length).map Prod.snd))
          ((M.drop A.length).map Prod.snd) := insertAll_append _ _ _
    _ = insertAll (M.take A.length) ((M.drop A.length).map Prod.snd) := by
        rw [insertAll_rebuild_aligned hk1.symm hn1 hc1]
    _ = M.take A.length ++
          ((M.drop A.length).map Prod.snd).map (fun s => (s.normalized_name, s)) := by
        rw [insertAll_of_disjoint hdisj
          (by rw [values_map_key_eq_entryKeys hc2]; exact hn2)]
    _ = M.take A.length ++ M.drop A.length := by rw [entries_of_values hc2]
    _ = M := List.take_append_drop _ _

theorem insertAll_nil_consistent (l : List GamblingSite) :
    entriesConsistent (insertAll [] l) :=
  entriesConsistent_insertAll (by intro p hp; simp at hp)

theorem insertAll_nil_keys_nodup (l : List GamblingSite) :
    (entryKeys (insertAll [] l)).Nodup :=
  entryKeys_nodup_insertAll (by simp [entryKeys])

theorem mergeSites_mapGet {ns prev : List GamblingSite}
    (h : (prev.map GamblingSite.normalized_name).Nodup) :
    ∀ s ∈ prev, mapGet (insertAll [] (ns ++ prev)) s.normalized_name = some s := by
  intro s hs
  rw [insertAll_append [] ns prev]
  exact mapGet_insertAll_self h (insertAll [] ns) s hs

theorem mem_mergeSites_of_mem_prev {ns prev : List GamblingSite}
    (h : (prev.map GamblingSite.normalized_name).Nodup) :
    ∀ s ∈ prev, s ∈ mergeSites ns prev := by
  intro s hs
  exact List.mem_map_of_mem Prod.snd (mapGet_mem (mergeSites_mapGet h s hs))

theorem mergeSites_unique {ns prev : List GamblingSite}
    (h : (prev.map GamblingSite.normalized_name).Nodup) :
    ∀ s ∈ prev, ∀ t ∈ mergeSites ns prev,
      t.normalized_name = s.normalized_name → t = s := by
  intro s hs t ht hts
  have h1 : mapGet (insertAll [] (ns ++ prev)) t.normalized_name = some t :=
    mem_values_iff_mapGet (insertAll_nil_consistent (ns ++ prev))
      (insertAll_nil_keys_nodup (ns ++ prev)) ht
  rw [hts, mergeSites_mapGet h s hs] at h1
  exact (Option.some_inj.1 h1).symm

theorem dedupByKey_keys_nodup (l : List GamblingSite) :
    ((dedupByKey l).map GamblingSite.normalized_name).Nodup := by
  rw [dedupByKey, values_map_key_eq_entryKeys (insertAll_nil_consistent l)]
  exact insertAll_nil_keys_nodup l

/-- Claim C1: a discovery cycle merges new sites into the registry keeping the
first-seen record: for every record `s` already in the registry (whose keys
are pairwise distinct), `s` itself is in the merged registry, any merged
record sharing its `normalized_name` is `s` (so a newly returned duplicate is
discarded), and the merged registry has exactly one record per
`normalized_name`. -/
theorem merge_keeps_first_occurrence (ns prev : List GamblingSite)
    (h : (prev.map GamblingSite.normalized_name).Nodup) :
    (∀ s ∈ prev, s ∈ mergeSites ns prev) ∧
    (∀ s ∈ prev, ∀ t ∈ mergeSites ns prev,
      t.normalized_name = s.normalized_name → t = s) ∧
    ((mergeSites ns prev).map GamblingSite.normalized_name).Nodup :=
  ⟨mem_mergeSites_of_mem_prev h, mergeSites_unique h, dedupByKey_keys_nodup _⟩


/-- Concrete record used to exercise the theorems on explicit inputs. -/
def siteA : GamblingSite :=
  { id := "a1", site_name := "AlphaBet88", normalized_name := "alphabet88",
    first_seen := "t0", last_seen := "t0", confidence_score := 1,
    status := SiteStatus.ACTIVE, source_count := 1, sources := [] }

/-- Concrete record with a different dedup key. -/
def siteB : GamblingSite :=
  { id := "b2", site_name := "BetaGacor", normalized_name := "betagacor",
    first_seen := "t1", last_seen := "t1", confidence_score := 1,
    status := SiteStatus.ACTIVE, source_count := 2, sources := [] }

/-- A freshly discovered record that collides with `siteB` on the dedup key
but differs in content. -/
def siteB2 : GamblingSite :=
  { id := "b9", site_name := "BETA GACOR", normalized_name := "betagacor",
    first_seen := "t5", last_seen := "t5", confidence_score := 1,
    status := SiteStatus.ACTIVE, source_count := 9, sources := [] }

theorem merge_keeps_first_occurrence_witness :
    siteB ∈ mergeSites [siteB2] [siteA, siteB] ∧
    ((mergeSites [siteB2] [siteA, siteB]).map GamblingSite.normalized_name).Nodup ∧
    siteB2 ∉ mergeSites [siteB2] [siteA, siteB] :=
  ⟨(merge_keeps_first_occurrence [siteB2] [siteA, siteB] (by decide)).1
      siteB (by decide),
   (merge_keeps_first_occurrence [siteB2] [siteA, siteB] (by decide)).2.2,
   fun hmem =>
     absurd ((merge_keeps_first_occurrence [siteB2] [siteA, siteB] (by decide)).2.1
       siteB (by decide) siteB2 hmem (by decide)) (by decide)⟩

/-- Claim C3: deduplication by normalized key is idempotent: merging the same
new sites into an already-merged registry changes nothing, and merging an
already-deduplicated registry with an empty new-sites list leaves it
unchanged. -/
theorem merge_dedup_idempotent (ns prev : List GamblingSite) :
    mergeSites ns (mergeSites ns prev) = mergeSites ns prev ∧
    ∀ l : List GamblingSite, (l.map GamblingSite.normalized_name).Nodup →
      mergeSites [] l = l := by
  constructor
  · have hpre : ∃ r, entryKeys (insertAll [] (ns ++ prev)) =
        entryKeys (insertAll [] ns) ++ r := by
      rw [insertAll_append [] ns prev]
      exact entryKeys_insertAll_extends _ prev
    calc mergeSites ns (mergeSites ns prev)
        = (insertAll (insertAll [] ns)
            ((insertAll [] (ns ++ prev)).map Prod.snd)).map Prod.snd := by
          rw [mergeSites, dedupByKey, insertAll_append]
          rfl
      _ = (insertAll [] (ns ++ prev)).map Prod.snd := by
          rw [insertAll_rebuild (insertAll_nil_keys_nodup (ns ++ prev))
            (insertAll_nil_consistent (ns ++ prev)) hpre]
      _ = mergeSites ns prev := rfl
  · intro l hl
    rw [mergeSites, dedupByKey, List.nil_append,
      insertAll_of_disjoint (by simp [entryKeys]) hl]
    rw [List.nil_append, List.map_map]
    rw [show (Prod.snd ∘ fun s : GamblingSite => (s.normalized_name, s)) = id
      from rfl, List.map_id]

theorem merge_dedup_idempotent_witness :
    mergeSites [siteB2] (mergeSites [siteB2] [siteA, siteB]) =
      mergeSites [siteB2] [siteA, siteB] ∧
    mergeSites [] [siteA, siteB] = [siteA, siteB] :=
  ⟨(merge_dedup_idempotent [siteB2] [siteA, siteB]).1,
   (merge_dedup_idempotent [siteB2] [siteA, siteB]).2 [siteA, siteB] (by decide)⟩

/-- Claim C6: the registry only grows: when the previous registry has
pairwise-distinct normalized names, every previously present
`normalized_name` is still present after a discovery merge and the merged
registry is at least as long. -/
theorem merge_only_grows (ns prev : List GamblingSite)
    (h : (prev.map GamblingSite.normalized_name).Nodup) :
    (∀ k ∈ prev.map GamblingSite.normalized_name,
      k ∈ (mergeSites ns prev).map GamblingSite.normalized_name) ∧
    prev.length ≤ (mergeSites ns prev).length := by
  have hsub : ∀ k ∈ prev.map GamblingSite.normalized_name,
      k ∈ (mergeSites ns prev).map GamblingSite.normalized_name := by
    intro k hk
    obtain ⟨s, hs, rfl⟩ := List.mem_map.1 hk
    exact List.mem_map_of_mem GamblingSite.normalized_name
      (mem_mergeSites_of_mem_prev h s hs)
  refine ⟨hsub, ?_⟩
  calc prev.length
      = (prev.map GamblingSite.normalized_name).length :=
        (List.length_map prev GamblingSite.normalized_name).symm
    _ = (prev.map GamblingSite.normalized_name).toFinset.card :=
        (List.toFinset_card_of_nodup h).symm
    _ ≤ ((mergeSites ns prev).map GamblingSite.normalized_name).toFinset.card := by
        apply Finset.card_le_card
        intro a ha
        rw [List.mem_toFinset] at ha ⊢
        exact hsub a ha
    _ ≤ ((mergeSites ns prev).map GamblingSite.normalized_name).length :=
        List.toFinset_card_le _
    _ = (mergeSites ns prev).length :=
        List.length_map (mergeSites ns prev) GamblingSite.normalized_name

theorem merge_only_grows_witness :
    "betagacor" ∈ (mergeSites [siteB2] [siteA, siteB]).map
      GamblingSite.normalized_name ∧
    ([siteA, siteB] : List GamblingSite).length ≤
      (mergeSites [siteB2] [siteA, siteB]).length :=
  ⟨(merge_only_grows [siteB2] [siteA, siteB] (by decide)).1
      "betagacor" (by decide),
   (merge_only_grows [siteB2] [siteA, siteB] (by decide)).2⟩

/-- The ternary `s.status === SiteStatus.ACTIVE ? SiteStatus.FALSE_POSITIVE :
SiteStatus.ACTIVE` inside `toggleStatus` (`src/App.tsx` lines 153-161). -/
def nextStatus : SiteStatus → SiteStatus
  | SiteStatus.ACTIVE => SiteStatus.FALSE_POSITIVE
  | _ => SiteStatus.ACTIVE

/-- Embeds `toggleStatus` from `src/App.tsx`: map over the registry, replacing the
status of every record whose `id` matches. -/
def toggleStatus (id : String) (sites : List GamblingSite) : List GamblingSite :=
  sites.map (fun s =>
    if s.id = id then { s with status := nextStatus s.status } else s)

/-- A registry record in the third status, `flagged`, which `toggleStatus`
sends to `active` rather than back to itself. -/
def siteFlagged : GamblingSite :=
  { id := "f1", site_name := "GammaSpin", normalized_name := "gammaspin",
    first_seen := "t2", last_seen := "t2", confidence_score := 1,
    status := SiteStatus.FLAGGED, source_count := 1, sources := [] }

theorem toggle_involution_counterexample :
    toggleStatus "f1" (toggleStatus "f1" [siteFlagged]) ≠ [siteFlagged] := by
  decide

/-- Claim C2 (amended): `toggleStatus` maps `ACTIVE` to `FALSE_POSITIVE` and
`FALSE_POSITIVE` to `ACTIVE`, and applying it twice to the same id restores
the registry provided no matching record is in the third status `FLAGGED`
(a `FLAGGED` record is sent to `ACTIVE` and then to `FALSE_POSITIVE`). -/
theorem toggle_involution_amended (sites : List GamblingSite) (id : String)
    (h : ∀ s ∈ sites, s.id = id → s.status ≠ SiteStatus.FLAGGED) :
    toggleStatus id (toggleStatus id sites) = sites ∧
    nextStatus SiteStatus.ACTIVE = SiteStatus.FALSE_POSITIVE ∧
    nextStatus SiteStatus.FALSE_POSITIVE = SiteStatus.ACTIVE := by
  refine ⟨?_, rfl, rfl⟩
  rw [toggleStatus, toggleStatus, List.map_map]
  have hpt : ∀ s ∈ sites,
      ((fun s : GamblingSite =>
          if s.id = id then { s with status := nextStatus s.status } else s) ∘
        (fun s : GamblingSite =>
          if s.id = id then { s with status := nextStatus s.status } else s)) s
        = s := by
    intro s hs
    by_cases hid : s.id = id
    · have hst := h s hs hid
      obtain ⟨i, sn, nn, fs, ls, cs, st, sc, src⟩ := s
      simp only at hid hst
      subst hid
      cases st with
      | ACTIVE => simp [Function.comp, nextStatus]
      | FLAGGED => exact absurd rfl hst
      | FALSE_POSITIVE => simp [Function.comp, nextStatus]
    · simp [Function.comp, hid]
  rw [List.map_congr_left hpt]
  simp

theorem toggle_involution_amended_witness :
    toggleStatus "a1" (toggleStatus "a1" [siteA, siteB]) = [siteA, siteB] :=
  (toggle_involution_amended [siteA, siteB] "a1" (by decide)).1

/-- One registry-mutating operation performed by the app: a discovery merge
(`setSites` updater in `handleDiscovery`) or a manual status toggle. -/
inductive RegOp where
  | discover (newSites : List GamblingSite)
  | toggle (id : String)

/-- Effect of one operation on the `sites` state. -/
def applyOp (sites : List GamblingSite) : RegOp → List GamblingSite
  | RegOp.discover ns => mergeSites ns sites
  | RegOp.toggle id => toggleStatus id sites

/-- The registry reached from the initial state `useState([])` after a
sequence of operations. -/
def runOps (ops : List RegOp) : List GamblingSite := ops.foldl applyOp []

theorem toggleStatus_keys (id : String) (sites : List GamblingSite) :
    (toggleStatus id sites).map GamblingSite.normalized_name =
      sites.map GamblingSite.normalized_name := by
  rw [toggleStatus, List.map_map]
  apply List.map_congr_left
  intro s hs
  by_cases hid : s.id = id <;> simp [Function.comp, hid]

theorem applyOp_keys_nodup {sites : List GamblingSite}
    (h : (sites.map GamblingSite.normalized_name).Nodup) (op : RegOp) :
    ((applyOp sites op).map GamblingSite.normalized_name).Nodup := by
  cases op with
  | discover ns => exact dedupByKey_keys_nodup (ns ++ sites)
  | toggle id => rw [applyOp, toggleStatus_keys]; exact h

/-- Claim C7: starting from the empty registry, any sequence of discovery
merges and status toggles keeps the `normalized_name` values of the registry
pairwise distinct. -/
theorem registry_keys_nodup_invariant (ops : List RegOp) :
    ((runOps ops).map GamblingSite.normalized_name).Nodup := by
  have h : ∀ sites, (sites.map GamblingSite.normalized_name).Nodup →
      ((ops.foldl applyOp sites).map GamblingSite.normalized_name).Nodup := by
    induction ops with
    | nil => intro sites hs; exact hs
    | cons op rest ih =>
      intro sites hs
      exact ih (applyOp sites op) (applyOp_keys_nodup hs op)
  exact h [] (by simp)

/-- The four log-entry kinds of `AgentLog['type']` in `src/types.ts`. -/
inductive LogType where
  | info
  | success
  | warning
  | error
deriving DecidableEq, Repr

/-- Embeds the `AgentLog` interface of `src/types.ts`. -/
structure AgentLog where
  timestamp : String
  message : String
  type : LogType
deriving DecidableEq, Repr

/-- Embeds `addLog` from `src/App.tsx` lines 20-26: prepend the new entry and keep
`slice(0, 50)`.  The `new Date().toLocaleTimeString()` timestamp is supplied
as a parameter. -/
def addLog (timestamp message : String) (ty : LogType)
    (prev : List AgentLog) : List AgentLog :=
  ({ timestamp := timestamp, message := message, type := ty } :: prev).take 50

/-- Claim C10: the log stream is a bounded newest-first buffer: `addLog`
prepends exactly one entry carrying the given message and type, the result
has at most 50 entries, and any overflow is dropped from the oldest (last)
end. -/
theorem addLog_bounded_newest_first (ts msg : String) (ty : LogType)
    (prev : List AgentLog) :
    addLog ts msg ty prev =
      { timestamp := ts, message := msg, type := ty } :: prev.take 49 ∧
    (addLog ts msg ty prev).length ≤ 50 ∧
    (addLog ts msg ty prev).head? =
      some { timestamp := ts, message := msg, type := ty } := by
  refine ⟨List.take_succ_cons, ?_, ?_⟩
  · rw [addLog, List.length_take]
    exact min_le_left _ _
  · rw [addLog, List.take_succ_cons]
    rfl

/-- The component state of `App` relevant to the discovery loop
(`useState` hooks in `src/App.tsx`). -/
structure AppState where
  sites : List GamblingSite
  logs : List AgentLog
  isSearching : Bool
  isAnalyzing : Bool
  isAutonomous : Bool
  searchQuery : String
  autoCycleCount : Nat
  nextCycleCountdown : Nat
deriving DecidableEq, Repr

/-- Embeds `startCountdown` from `src/App.tsx` lines 83-85: set the countdown to the
fixed 15-second delay. -/
def startCountdown (st : AppState) : AppState :=
  { st with nextCycleCountdown := 15 }

/-- The `catch`/`finally` path of `handleDiscovery` (`src/App.tsx` lines
74-80): log an `error` entry (message from `error.message`, or
`'Unknown error'` when the thrown value is not an `Error`), schedule a retry
via `startCountdown` only in autonomous mode, and reset `isSearching`. -/
def handleDiscoveryOnError (st : AppState) (ts : String)
    (err : Option String) : AppState :=
  let msg := "Error during discovery: " ++ err.getD "Unknown error"
  let st1 := { st with logs := addLog ts msg LogType.error st.logs }
  let st2 := if st1.isAutonomous then startCountdown st1 else st1
  { st2 with isSearching := false }

/-- Claim C4: when the discovery call throws, the error is caught: an entry of
type `error` enters the log stream as its newest element, the sites registry
is unchanged, `isSearching` is reset to `false`, and the countdown is set to
the fixed 15-second delay exactly when autonomous mode is on (otherwise it is
untouched), with no dependence on the error kind. -/
theorem discovery_error_path (st : AppState) (ts : String) (err : Option String) :
    (handleDiscoveryOnError st ts err).sites = st.sites ∧
    (handleDiscoveryOnError st ts err).isSearching = false ∧
    (handleDiscoveryOnError st ts err).logs.head? =
      some { timestamp := ts,
             message := "Error during discovery: " ++ err.getD "Unknown error",
             type := LogType.error } ∧
    (handleDiscoveryOnError st ts err).nextCycleCountdown =
      (if st.isAutonomous then 15 else st.nextCycleCountdown) := by
  cases hb : st.isAutonomous <;>
    simp [handleDiscoveryOnError, startCountdown, hb, addLog, List.take_succ_cons]

/-- Guard of the autonomous-trigger effect (`src/App.tsx` lines 88-106): a
discovery cycle is initiated only when
`isAutonomous && !isSearching && nextCycleCountdown === 0`. -/
def autonomousTriggerFires (st : AppState) : Bool :=
  st.isAutonomous && !st.isSearching && (st.nextCycleCountdown == 0)

/-- Guard of the countdown-timer effect (`src/App.tsx` lines 109-116): the
interval ticks only when `isAutonomous && nextCycleCountdown > 0`. -/
def countdownTimerRuns (st : AppState) : Bool :=
  st.isAutonomous && decide (st.nextCycleCountdown > 0)

/-- Steps of the autonomous loop.  A `trigger` step (initiating a discovery
cycle) may lead to an arbitrary successor state — an over-approximation of
`handleDiscovery`, sound for proving that no step is possible — and is
enabled only by its effect guard; a `tick` step decrements the countdown and
is enabled only by the timer guard. -/
inductive AutoStep : AppState → AppState → Prop where
  | trigger (st st' : AppState) :
      autonomousTriggerFires st = true → AutoStep st st'
  | tick (st : AppState) : countdownTimerRuns st = true →
      AutoStep st { st with nextCycleCountdown := st.nextCycleCountdown - 1 }

/-- Claim C8: while `isAutonomous` is false, the autonomous-trigger effect
never initiates a discovery cycle, the countdown timer never runs, and no
step of the autonomous loop is possible at all, so no further self-evolved
query is ever issued after the flag is switched off. -/
theorem autonomous_off_never_steps (st : AppState)
    (h : st.isAutonomous = false) :
    autonomousTriggerFires st = false ∧ countdownTimerRuns st = false ∧
    ∀ st', ¬ AutoStep st st' := by
  have h1 : autonomousTriggerFires st = false := by
    simp [autonomousTriggerFires, h]
  have h2 : countdownTimerRuns st = false := by
    simp [countdownTimerRuns, h]
  refine ⟨h1, h2, ?_⟩
  intro st' hstep
  cases hstep with
  | trigger _ hg => rw [h1] at hg; exact Bool.false_ne_true hg
  | tick hg => rw [h2] at hg; exact Bool.false_ne_true hg

/-- The initial component state of `App` (`useState` initial values). -/
def idleState : AppState :=
  { sites := [], logs := [], isSearching := false, isAnalyzing := false,
    isAutonomous := false, searchQuery := "situs slot gacor terbaru 2024",
    autoCycleCount := 0, nextCycleCountdown := 0 }

theorem autonomous_off_never_steps_witness :
    autonomousTriggerFires idleState = false ∧
    countdownTimerRuns idleState = false :=
  ⟨(autonomous_off_never_steps idleState rfl).1,
   (autonomous_off_never_steps idleState rfl).2.1⟩

/-- Character class of the regex `[a-z0-9]` used by the `replace` call. -/
def isLowerAlnum (c : Char) : Bool :=
  ('a' ≤ c && c ≤ 'z') || ('0' ≤ c && c ≤ '9')

/-- Embeds `site.normalized_name.toLowerCase().replace(/[^a-z0-9]/g, '')`
from `performDiscovery`: lowercase the string, then delete every character that is
not a lowercase letter or digit. -/
def jsNormalize (s : String) : String :=
  ((s.data.map Char.toLower).filter isLowerAlnum).asString

/-- Shape of one element of `extracted_sites` in the model's JSON response
schema (`responseSchema` in `performDiscovery`). -/
structure RawSite where
  site_name : String
  normalized_name : String
  confidence_score : Rat
deriving DecidableEq, Repr

/-- Shape of the parsed JSON response: an object with `extracted_sites`. -/
structure ParsedResponse where
  extracted_sites : List RawSite
deriving DecidableEq, Repr

/-- The fields of the `generateContent` response that `performDiscovery`
reads: `response.text` and the grounding-chunk URIs already extracted into a
list (`sources`). -/
structure ModelResponse where
  text : String
  groundingUris : List String
deriving DecidableEq, Repr

/-- Embeds `performDiscovery` after the `generateContent` call (the service code in
`src/components/ArchitectureDiagram.tsx`): `JSON.parse` is modelled by the
`parse` parameter, with `none` standing for a thrown parse error, which the
`try`/`catch` replaces by `{ extracted_sites: [] }`; `idOf i` models the
`Math.random().toString(36).substr(2, 9)` id and `countOf i` the random
`source_count` of the `i`-th record; `timestamp` models
`new Date().toISOString()`. -/
def performDiscovery (parse : String → Option ParsedResponse)
    (idOf : Nat → String) (countOf : Nat → Nat) (timestamp : String)
    (resp : ModelResponse) : List GamblingSite × List String :=
  let sources := resp.groundingUris
  let result := match parse resp.text with
    | some r => r
    | none => { extracted_sites := [] }
  let sites := result.extracted_sites.enum.map (fun p =>
    { id := idOf p.1,
      site_name := p.2.site_name,
      normalized_name := jsNormalize p.2.normalized_name,
      first_seen := timestamp,
      last_seen := timestamp,
      confidence_score := p.2.confidence_score,
      status := SiteStatus.ACTIVE,
      source_count := countOf p.1,
      sources := sources.take 3 })
  (sites, sources)

/-- Claim C9: on a response whose text does not parse as JSON, the failure is
absorbed internally: `performDiscovery` returns with an empty sites list and
the grounding sources still extracted, instead of propagating the error. -/
theorem performDiscovery_malformed_response
    (parse : String → Option ParsedResponse) (idOf : Nat → String)
    (countOf : Nat → Nat) (ts : String) (resp : ModelResponse)
    (h : parse resp.text = none) :
    (performDiscovery parse idOf countOf ts resp).1 = [] ∧
    (performDiscovery parse idOf countOf ts resp).2 = resp.groundingUris := by
  simp [performDiscovery, h]

theorem performDiscovery_malformed_response_witness :
    (performDiscovery (fun _ => none) (fun _ => "x0") (fun _ => 1) "t"
      { text := "not json", groundingUris := ["u1"] }).1 = [] ∧
    (performDiscovery (fun _ => none) (fun _ => "x0") (fun _ => 1) "t"
      { text := "not json", groundingUris := ["u1"] }).2 = ["u1"] :=
  performDiscovery_malformed_response (fun _ => none) (fun _ => "x0")
    (fun _ => 1) "t" { text := "not json", groundingUris := ["u1"] } rfl

/-- Claim C5: every site record returned by `performDiscovery` has a
`normalized_name` containing only the characters `a`-`z` and `0`-`9`. -/
theorem performDiscovery_normalized_charset
    (parse : String → Option ParsedResponse) (idOf : Nat → String)
    (countOf : Nat → Nat) (ts : String) (resp : ModelResponse)
    (s : GamblingSite) (hs : s ∈ (performDiscovery parse idOf countOf ts resp).1)
    (c : Char) (hc : c ∈ s.normalized_name.data) : isLowerAlnum c = true := by
  simp only [performDiscovery, List.mem_map] at hs
  obtain ⟨p, hp, rfl⟩ := hs
  simp only [jsNormalize] at hc
  have hc2 : c ∈ ((p.2.normalized_name.data.map Char.toLower).filter
      isLowerAlnum) := hc
  exact (List.mem_filter.1 hc2).2

/-- A concrete raw extraction result with symbols and uppercase letters. -/
def rawX : RawSite :=
  { site_name := "AB", normalized_name := "A-B!", confidence_score := 1 }

theorem performDiscovery_normalized_charset_witness : isLowerAlnum 'a' = true :=
  performDiscovery_normalized_charset
    (fun _ => some { extracted_sites := [rawX] }) (fun _ => "x0") (fun _ => 1)
    "t" { text := "ok", groundingUris := ["u1", "u2"] }
    { id := "x0", site_name := "AB", normalized_name := "ab",
      first_seen := "t", last_seen := "t", confidence_score := 1,
      status := SiteStatus.ACTIVE, source_count := 1,
      sources := ["u1", "u2"] }
    (by decide) 'a' (by decide)
